import Mathlib

/-!
Verification of the kronoform change-tracking pipeline
(cmd/kubectl-kronoform/main.go) against its specification.

The Go source is shallowly embedded below.  Strings are handled through
their character lists so that every definition is executable by the
kernel.  External collaborators (the YAML parser, the character-diff
library, the cluster store client, the subprocess) are modelled at the
interfaces the source uses, as documented at each definition.
-/

namespace Kronoform

/-! ### Go string primitives used by the source -/

/-- Whitespace test used by Go's strings.Fields / strings.TrimSpace
(unicode.IsSpace restricted to the characters that can occur in kubectl
status output; the Latin-1 rule of unicode.IsSpace). -/
def goIsSpace (c : Char) : Bool :=
  c = ' ' || c = '\t' || c = '\n' || c = '\x0b' || c = '\x0c' || c = '\r' ||
  c = '\x85' || c = '\xa0'

/-- Split a character list at every occurrence of the separator character
(the behaviour of Go's strings.Split with a one-character separator, and
of bufio.ScanLines when the separator is the newline). -/
def splitChar (sep : Char) : List Char → List (List Char)
  | [] => [[]]
  | c :: t =>
    if c = sep then [] :: splitChar sep t
    else
      match splitChar sep t with
      | [] => [[c]]
      | h :: r => (c :: h) :: r

/-- Go strings.TrimSpace on a character list. -/
def goTrimSpaceL (l : List Char) : List Char :=
  ((l.dropWhile goIsSpace).reverse.dropWhile goIsSpace).reverse

/-- Go strings.Trim with a one-character cutset. -/
def goTrimCharL (cut : Char) (l : List Char) : List Char :=
  ((l.dropWhile (· = cut)).reverse.dropWhile (· = cut)).reverse

/-- Go strings.Fields: the maximal runs of non-whitespace characters. -/
def goFieldsL (l : List Char) : List (List Char) :=
  (splitChar ' ' (l.map (fun c => if goIsSpace c then ' ' else c))).filter
    (fun w => w ≠ [])

/-- Go strings.Contains: substring test. -/
def containsSub (hay needle : List Char) : Bool :=
  match hay with
  | [] => needle.isEmpty
  | _ :: t => needle.isPrefixOf hay || containsSub t needle

/-- One step of Go strings.ReplaceAll, fuelled by the length of the
subject so that the recursion is structural. -/
def replaceAllAux (pat rep : List Char) : Nat → List Char → List Char
  | 0, s => s
  | _ + 1, [] => []
  | fuel + 1, c :: t =>
    if pat ≠ [] && pat.isPrefixOf (c :: t) then
      rep ++ replaceAllAux pat rep fuel (List.drop (pat.length - 1) t)
    else
      c :: replaceAllAux pat rep fuel t

/-- Go strings.ReplaceAll on character lists (non-empty pattern). -/
def replaceAllL (s pat rep : List Char) : List Char :=
  replaceAllAux pat rep s.length s

/-- Go strings.ToLower restricted to ASCII (the only characters the
analyzer compares). -/
def goToLowerL (l : List Char) : List Char :=
  l.map (fun c => if 'A' ≤ c && c ≤ 'Z' then Char.ofNat (c.toNat + 32) else c)

/-- Go strings.Join with a separator, on decomposed words. -/
def joinSepL (sep : List Char) : List (List Char) → List Char
  | [] => []
  | [w] => w
  | w :: ws => w ++ sep ++ joinSepL sep ws

/-! ### Output Change Analyzer (analyzeKubectlOutput, cleanResourceName) -/

/-- ResourceChange from api/v1alpha1: a resource identifier and its
classified operation. -/
structure ResourceChange where
  resource : String
  operation : String
deriving DecidableEq, Repr

/-- cleanResourceName: strips the API-group suffixes the source
enumerates, via successive strings.ReplaceAll calls. -/
def cleanResourceName (resource : List Char) : List Char :=
  let r := replaceAllL resource ".apps".data []
  let r := replaceAllL r ".v1".data []
  let r := replaceAllL r ".batch".data []
  let r := replaceAllL r ".networking.k8s.io".data []
  let r := replaceAllL r ".rbac.authorization.k8s.io".data []
  let r := replaceAllL r ".storage.k8s.io".data []
  let r := replaceAllL r ".apiextensions.k8s.io".data []
  r

/-- The four operation words the analyzer's token scan recognises. -/
def opWords : List (List Char) :=
  ["created".data, "configured".data, "unchanged".data, "deleted".data]

/-- The token scan of the analyzer's third case: the first token equal to
one of the four operation words, with its index. -/
def findOpWord : Nat → List (List Char) → Option (Nat × List Char)
  | _, [] => none
  | i, w :: ws =>
    if w ∈ opWords then some (i, w) else findOpWord (i + 1) ws

/-- The capitalisation switch at the end of the analyzer's loop body:
operations matching one of the four words case-insensitively are
capitalised, anything else passes through unchanged. -/
def normalizeOp (op : List Char) : List Char :=
  let low := goToLowerL op
  if low = "created".data then "Created".data
  else if low = "configured".data then "Configured".data
  else if low = "unchanged".data then "Unchanged".data
  else if low = "deleted".data then "Deleted".data
  else op

/-- The three-case switch of the analyzer, choosing the raw resource and
operation from the whitespace tokens of a line (here already split into
first, second and remaining tokens): two tokens are resource and
operation; three tokens whose middle token equals a quote followed by
its quote-trimmed form and whose last token is "deleted" are reassembled
with a slash; otherwise the tokens are scanned for the first operation
word, everything before it rejoined as the resource.  An empty operation
means no case matched. -/
def selectParts (p0 p1 : List Char) (rest : List (List Char)) :
    List Char × List Char :=
  let parts := p0 :: p1 :: rest
  if rest = [] then
    (p0, p1)
  else if parts.length = 3 ∧ p1 = '"' :: goTrimCharL '"' p1 ∧
      parts.getD 2 [] = "deleted".data then
    (p0 ++ '/' :: goTrimCharL '"' p1, parts.getD 2 [])
  else
    match findOpWord 0 parts with
    | some (i, w) => (if i > 0 then joinSepL [' '] (parts.take i) else p0, w)
    | none => (p0, [])

/-- The body of analyzeKubectlOutput's scanner loop for one trimmed,
non-blank line: tokenise, pick (resource, operation) by the three-case
switch, and emit a ResourceChange (resource cleaned, operation
capitalised) when an operation was found. -/
def parseLine (line : List Char) : Option ResourceChange :=
  match goFieldsL line with
  | p0 :: p1 :: rest =>
    let rp := selectParts p0 p1 rest
    if rp.2 ≠ [] then
      some ⟨String.mk (cleanResourceName rp.1), String.mk (normalizeOp rp.2)⟩
    else
      none
  | _ => none

/-- The operations that raise the aggregate change flag. -/
def isChangeOp (ch : ResourceChange) : Bool :=
  ch.operation = "Created" || ch.operation = "Configured" ||
    ch.operation = "Deleted"

/-- One scanner-loop iteration of analyzeKubectlOutput: trim the line,
skip it when blank, otherwise parse it, appending the emitted change and
raising the flag for a change operation. -/
def analyzeStep (acc : Bool × List ResourceChange) (raw : List Char) :
    Bool × List ResourceChange :=
  let line := goTrimSpaceL raw
  if line = [] then acc
  else
    match parseLine line with
    | none => acc
    | some ch => (acc.1 || isChangeOp ch, acc.2 ++ [ch])

/-- analyzeKubectlOutput: scan the captured output line by line with
analyzeStep, starting from no changes. -/
def analyzeKubectlOutput (output : String) : Bool × List ResourceChange :=
  (splitChar '\n' output.data).foldl analyzeStep (false, [])

/-- The contribution of one raw line to the analyzer's change list. -/
def lineChange (raw : List Char) : Option ResourceChange :=
  if goTrimSpaceL raw = [] then none else parseLine (goTrimSpaceL raw)

/-! ### isValidKubernetesName -/

/-- Length in bytes of one rune's UTF-8 encoding (Go indexes strings by
byte position when ranging over runes). -/
def runeSize (c : Char) : Nat :=
  if c.toNat < 0x80 then 1
  else if c.toNat < 0x800 then 2
  else if c.toNat < 0x10000 then 3
  else 4

/-- Go len(name): the byte length of the string. -/
def byteLen (l : List Char) : Nat := (l.map runeSize).sum

/-- Lowercase ASCII letter or digit, by rune value as the Go code
compares (97..122 is a..z, 48..57 is 0..9). -/
def isLowerAlnum (c : Char) : Bool :=
  (97 ≤ c.toNat && c.toNat ≤ 122) || (48 ≤ c.toNat && c.toNat ≤ 57)

/-- The character class of the validation loop: lowercase letter, digit,
dash or dot. -/
def nameCharOk (c : Char) : Bool :=
  isLowerAlnum c || c = '-' || c = '.'

/-- The range loop of isValidKubernetesName: i is the byte offset of the
current rune, total the byte length of the whole name. -/
def validNameLoop (total : Nat) : Nat → List Char → Bool
  | _, [] => true
  | i, c :: rest =>
    if !nameCharOk c then false
    else if i = 0 && !isLowerAlnum c then false
    else if i = total - 1 && !isLowerAlnum c then false
    else validNameLoop total (i + runeSize c) rest

/-- isValidKubernetesName from the source: non-empty, at most 253 bytes,
then the per-rune loop above. -/
def isValidKubernetesName (name : String) : Bool :=
  if name.data = [] || byteLen name.data > 253 then false
  else validNameLoop (byteLen name.data) 0 name.data

/-- The validation rule in the spec's words: non-empty, at most 253
characters, every character a lowercase letter, digit, dash or dot, and
alphanumeric first and last characters.  Stated independently of the
source so the two can be compared. -/
def specValidName (name : String) : Bool :=
  !name.data.isEmpty && name.data.length ≤ 253 && name.data.all nameCharOk &&
    isLowerAlnum (name.data.headD 'x') && isLowerAlnum (name.data.getLastD 'x')

/-! ### Manifest Loader (readManifestFiles) -/

/-- path.filepath Clean for slash-separated paths: split into components,
drop empty and dot components, resolve parent components against a stack
(at the root a parent component vanishes; an unrooted path keeps leading
parent components), and rejoin. -/
def goClean (path : String) : String :=
  if path.data = [] then "." else
  let rooted := path.data.headD ' ' = '/'
  let comps := ((splitChar '/' path.data).map String.mk).filter
    (fun c => c ≠ "" && c ≠ ".")
  let stack := comps.foldl
    (fun (acc : List String) c =>
      if c = ".." then
        match acc with
        | [] => if rooted then [] else [".."]
        | top :: rest => if top = ".." then c :: acc else rest
      else c :: acc) []
  let joined := String.mk (joinSepL ['/'] ((stack.reverse).map String.data))
  let full := if rooted then String.mk ('/' :: joined.data) else joined
  if full.data = [] then "." else full

/-- path.filepath IsAbs on slash-separated paths. -/
def goIsAbs (path : String) : Bool := path.data.headD ' ' = '/'

/-- What the filesystem holds at a path: no file (open fails), a file
whose read fails, or readable content.  The filesystem is an external
collaborator of readManifestFiles, passed in as a map. -/
inductive FileRes where
  | missing
  | readError
  | content (text : String)

/-- Errors of readManifestFiles. -/
inductive ReadErr where
  | invalidPath
  | openError
  | readFailed
deriving DecidableEq, Repr

/-- The outcome of readManifestFiles: the returned string, the returned
error (none on success), and the trace of paths on which an open was
attempted, in order. -/
structure ReadResult where
  text : String
  err : Option ReadErr
  opened : List String
deriving Repr

/-- The loop of readManifestFiles: clean the path, reject it if the
cleaned path contains ".." or is absolute (before any open), then open
and read, appending a document separator between non-empty accumulated
contents; every failure returns the empty string. -/
def readManifestLoop (fs : String → FileRes) :
    List String → String → List String → ReadResult
  | [], acc, opened => ⟨acc, none, opened⟩
  | f :: rest, acc, opened =>
    let cleanPath := goClean f
    if containsSub cleanPath.data "..".data then ⟨"", some .invalidPath, opened⟩
    else if goIsAbs cleanPath then ⟨"", some .invalidPath, opened⟩
    else
      match fs cleanPath with
      | .missing => ⟨"", some .openError, opened ++ [cleanPath]⟩
      | .readError => ⟨"", some .readFailed, opened ++ [cleanPath]⟩
      | .content text =>
        readManifestLoop fs rest
          (if acc ≠ "" then acc ++ "\n---\n" ++ text else acc ++ text)
          (opened ++ [cleanPath])

/-- readManifestFiles over a modelled filesystem. -/
def readManifestFiles (fs : String → FileRes) (filenames : List String) :
    ReadResult :=
  readManifestLoop fs filenames "" []

/-- A path component equal to "..": the claim's notion of a
parent-directory segment, stated on the cleaned path. -/
def hasParentSegment (s : String) : Bool :=
  (splitChar '/' s.data).any (fun c => c = "..".data)

/-! ### Record Store Coordinator (createSnapshot, createHistory,
cleanupSnapshot) -/

/-- Snapshot phase. -/
inductive Phase where
  | pending
  | completed
  | noChanges
deriving DecidableEq, Repr

/-- The Snapshot fields the coordinator reads or writes. -/
structure SnapshotRec where
  manifests : String
  phase : Phase
  historyRef : String
  message : String
deriving DecidableEq, Repr

/-- The History fields the coordinator writes. -/
structure HistoryRec where
  manifests : String
  snapshotRef : String
deriving DecidableEq, Repr

/-- Object key: name and namespace, as in client.ObjectKey. -/
abbrev ObjKey := String × String

/-- The cluster store visible to the coordinator: the persisted
snapshots and histories, keyed by (name, namespace).  The store client
is an external collaborator; Create / Get / Status().Update / Delete
are modelled as operations on these association lists, with a Boolean
per network call telling whether the call succeeds. -/
structure Store where
  snapshots : List (ObjKey × SnapshotRec)
  histories : List (ObjKey × HistoryRec)
deriving DecidableEq, Repr

/-- Lookup in an association list (client Get: found or not). -/
def lookupKey {α : Type} (k : ObjKey) : List (ObjKey × α) → Option α
  | [] => none
  | (k', v) :: rest => if k' = k then some v else lookupKey k rest

/-- Overwrite the value at a key (client Status().Update). -/
def updateKey {α : Type} (k : ObjKey) (v : α) (l : List (ObjKey × α)) :
    List (ObjKey × α) :=
  l.map (fun p => if p.1 = k then (k, v) else p)

/-- Remove a key (client Delete). -/
def removeKey {α : Type} (k : ObjKey) (l : List (ObjKey × α)) :
    List (ObjKey × α) :=
  l.filter (fun p => p.1 ≠ k)

/-- The empty store. -/
def Store.empty : Store := ⟨[], []⟩

/-- getTargetNamespace from the source. -/
def getTargetNamespace (ns : String) : String :=
  if ns ≠ "" then ns else "default"

/-- Result of a coordinator call, as seen by its caller. -/
inductive OpResult where
  | ok
  | error
deriving DecidableEq, Repr

/-- createSnapshot: one Create call persisting a Pending snapshot under
the time-derived name (the name is a parameter because it comes from the
clock).  createOk tells whether the Create network call succeeds; Create
also fails when the name is already taken.  Besides the final store and
result, the list of store states after each successful write is
returned, so that reachable intermediate states are observable. -/
def createSnapshot (st : Store) (snapshotName manifestContent ns : String)
    (createOk : Bool) : Store × OpResult × List Store :=
  let key := (snapshotName, getTargetNamespace ns)
  if createOk && (lookupKey key st.snapshots).isNone then
    let st' := { st with snapshots := st.snapshots ++
      [(key, ⟨manifestContent, .pending, "", ""⟩)] }
    (st', .ok, [st'])
  else
    (st, .error, [])

/-- createHistory: Create the History (error is returned at once, with
nothing else attempted); then Get the referenced Snapshot; if it exists,
set its phase to Completed with the history back-reference and return
the result of the status update; if it does not exist, return success. -/
def createHistory (st : Store) (historyName manifestContent snapshotName ns : String)
    (createOk updateOk : Bool) : Store × OpResult × List Store :=
  let hkey := (historyName, getTargetNamespace ns)
  if createOk && (lookupKey hkey st.histories).isNone then
    let st1 := { st with histories := st.histories ++
      [(hkey, ⟨manifestContent, snapshotName⟩)] }
    let skey := (snapshotName, getTargetNamespace ns)
    match lookupKey skey st1.snapshots with
    | some snap =>
      if updateOk then
        let snap' := { snap with
          phase := .completed
          historyRef := historyName
          message := "Successfully applied and recorded" }
        let st2 := { st1 with snapshots := updateKey skey snap' st1.snapshots }
        (st2, .ok, [st1, st2])
      else
        (st1, .error, [st1])
    | none => (st1, .ok, [st1])
  else
    (st, .error, [])

/-- cleanupSnapshot: Get the snapshot (silently return if absent); set
its phase to NoChanges via a status update; then delete it.  Failure of
either write is logged and the other is still attempted; the call never
reports an error. -/
def cleanupSnapshot (st : Store) (snapshotName ns : String)
    (updateOk deleteOk : Bool) : Store × OpResult × List Store :=
  let skey := (snapshotName, getTargetNamespace ns)
  match lookupKey skey st.snapshots with
  | none => (st, .ok, [])
  | some snap =>
    let (st1, states1) :=
      if updateOk then
        let snap' := { snap with
          phase := .noChanges
          message := "No changes detected, snapshot not needed" }
        let s := { st with snapshots := updateKey skey snap' st.snapshots }
        (s, [s])
      else (st, [])
    let (st2, states2) :=
      if deleteOk then
        let s := { st1 with snapshots := removeKey skey st1.snapshots }
        (s, [s])
      else (st1, [])
    (st2, .ok, states1 ++ states2)

/-- One coordinator call with its parameters and the success of each
underlying store write. -/
inductive StoreCmd where
  | createSnap (name manifest ns : String) (createOk : Bool)
  | createHist (hname manifest snapName ns : String) (createOk updateOk : Bool)
  | cleanupSnap (snapName ns : String) (updateOk deleteOk : Bool)

/-- Run one coordinator call: the final store and the intermediate
stores after each successful write. -/
def runCmd (st : Store) : StoreCmd → Store × List Store
  | .createSnap name manifest ns ok =>
    let r := createSnapshot st name manifest ns ok
    (r.1, r.2.2)
  | .createHist hname manifest snapName ns cOk uOk =>
    let r := createHistory st hname manifest snapName ns cOk uOk
    (r.1, r.2.2)
  | .cleanupSnap snapName ns uOk dOk =>
    let r := cleanupSnapshot st snapName ns uOk dOk
    (r.1, r.2.2)

/-- The store states written by a sequence of coordinator calls. -/
def traceStates (st : Store) : List StoreCmd → List Store
  | [] => []
  | c :: cs =>
    let r := runCmd st c
    r.2 ++ traceStates r.1 cs

/-- All store states reachable from the empty store under a call
sequence, in order, the initial state included. -/
def fullTrace (cmds : List StoreCmd) : List Store :=
  Store.empty :: traceStates Store.empty cmds

/-- Adjacent-pair check over a list of stores. -/
def chainB (p : Store → Store → Bool) : List Store → Bool
  | [] => true
  | [_] => true
  | a :: b :: rest => p a b && chainB p (b :: rest)

/-- The phase stored at a key, when the store holds the key. -/
def phaseAt (st : Store) (k : ObjKey) : Option Phase :=
  (lookupKey k st.snapshots).map (fun r => r.phase)

/-- The phase-transition discipline the claim states: between adjacent
reachable store states, a snapshot present in both keeps its phase, or
moves from Pending to Completed, or from Pending to NoChanges. -/
def claimPhaseStep (s1 s2 : Store) : Bool :=
  (s1.snapshots.map Prod.fst).all (fun k =>
    match phaseAt s1 k, phaseAt s2 k with
    | some p1, some p2 =>
      p1 = p2 ||
        (p1 = Phase.pending && (p2 = Phase.completed || p2 = Phase.noChanges))
    | _, _ => true)

/-- The discipline the code actually enforces: a snapshot present in
adjacent states keeps its phase or moves to Completed or NoChanges; no
transition ever re-enters Pending. -/
def codePhaseStep (s1 s2 : Store) : Bool :=
  (s1.snapshots.map Prod.fst).all (fun k =>
    match phaseAt s1 k, phaseAt s2 k with
    | some p1, some p2 =>
      p1 = p2 || (p2 = Phase.completed || p2 = Phase.noChanges)
    | _, _ => true)

/-- The last store of a write trace, the state before it as default. -/
def lastStore (d : Store) : List Store → Store
  | [] => d
  | x :: xs => lastStore x xs

/-! ### Diff Renderer (showDiff, removeUnwantedFields)

The two inputs of showDiff are parsed by the external YAML library into
generic maps (map of interface to interface in the source); we embed the
parsed form.  A value is either an opaque scalar (any YAML fragment the
code never looks inside) or a map of keys to opaque scalars: the code
only inspects the structure of the top level and of the metadata value. -/

/-- A parsed YAML value as removeUnwantedFields sees it. -/
inductive YVal where
  | atom (text : String)
  | mapv (entries : List (String × String))
deriving DecidableEq, Repr

/-- A parsed top-level document: a generic key-value mapping. -/
abbrev Doc := List (String × YVal)

/-- Map lookup (first binding wins; parsed Go maps have unique keys). -/
def lookupL {α : Type} (k : String) : List (String × α) → Option α
  | [] => none
  | (k', v) :: rest => if k' = k then some v else lookupL k rest

/-- Go's delete on a map: remove a key. -/
def eraseKeyL {α : Type} (k : String) (l : List (String × α)) :
    List (String × α) :=
  l.filter (fun p => p.1 ≠ k)

/-- Replace the value stored at a key in place. -/
def mapAtKey {α : Type} (k : String) (f : α → α) (l : List (String × α)) :
    List (String × α) :=
  l.map (fun p => if p.1 = k then (p.1, f p.2) else p)

/-- The metadata keys removeUnwantedFields deletes. -/
def volatileMetaKeys : List String :=
  ["creationTimestamp", "resourceVersion", "uid", "generation",
   "managedFields", "annotations"]

/-- Delete the volatile metadata keys from a metadata map. -/
def eraseVolatile (m : List (String × String)) : List (String × String) :=
  volatileMetaKeys.foldl (fun acc k => eraseKeyL k acc) m

/-- removeUnwantedFields: delete the status key, then, when the metadata
value is a map, delete the volatile keys inside it. -/
def removeUnwantedFields (obj : Doc) : Doc :=
  let obj1 := eraseKeyL "status" obj
  match lookupL "metadata" obj1 with
  | some (.mapv _) =>
    mapAtKey "metadata"
      (fun v => match v with
        | .mapv m => .mapv (eraseVolatile m)
        | x => x) obj1
  | _ => obj1

/-- Lexicographic less-or-equal on character lists (an executable string
order for the serialiser's key sort). -/
def charListLE : List Char → List Char → Bool
  | [], _ => true
  | _ :: _, [] => false
  | a :: as, b :: bs => if a = b then charListLE as bs else decide (a < b)

/-- Key order used when a map is serialised. -/
def keyLE {α : Type} (p q : String × α) : Prop :=
  charListLE p.1.data q.1.data = true

instance {α : Type} : DecidableRel (@keyLE α) :=
  fun p q => inferInstanceAs (Decidable (charListLE p.1.data q.1.data = true))

/-- charListLE is total. -/
theorem charListLE_total : ∀ a b : List Char,
    charListLE a b = true ∨ charListLE b a = true := by
  intro a
  induction a with
  | nil => intro b; left; rfl
  | cons x xs ih =>
    intro b
    cases b with
    | nil => right; rfl
    | cons y ys =>
      by_cases hxy : x = y
      · subst hxy
        rcases ih ys with h | h
        · left; simpa [charListLE] using h
        · right; simpa [charListLE] using h
      · rcases lt_or_gt_of_ne hxy with h | h
        · left; simp [charListLE, hxy, h]
        · right; simp [charListLE, Ne.symm hxy, h]

/-- charListLE is transitive. -/
theorem charListLE_trans : ∀ a b c : List Char,
    charListLE a b = true → charListLE b c = true → charListLE a c = true := by
  intro a
  induction a with
  | nil => intro b c _ _; rfl
  | cons x xs ih =>
    intro b c hab hbc
    cases b with
    | nil => simp [charListLE] at hab
    | cons y ys =>
      cases c with
      | nil => simp [charListLE] at hbc
      | cons z zs =>
        by_cases hxy : x = y
        · subst hxy
          by_cases hyz : x = z
          · subst hyz
            simp only [charListLE, if_pos rfl] at hab hbc ⊢
            exact ih ys zs hab hbc
          · simp only [charListLE, if_pos rfl] at hab
            simp only [charListLE, if_neg hyz] at hbc ⊢
            exact hbc
        · simp only [charListLE, if_neg hxy] at hab
          have hxyl : x < y := by simpa using hab
          by_cases hyz : y = z
          · subst hyz
            simp [charListLE, hxy, hxyl]
          · simp only [charListLE, if_neg hyz] at hbc
            have hyzl : y < z := by simpa using hbc
            have hxz : x < z := lt_trans hxyl hyzl
            simp [charListLE, ne_of_lt hxz, hxz]

/-- charListLE is antisymmetric. -/
theorem charListLE_antisymm : ∀ a b : List Char,
    charListLE a b = true → charListLE b a = true → a = b := by
  intro a
  induction a with
  | nil =>
    intro b _ hba
    cases b with
    | nil => rfl
    | cons y ys => simp [charListLE] at hba
  | cons x xs ih =>
    intro b hab hba
    cases b with
    | nil => simp [charListLE] at hab
    | cons y ys =>
      by_cases hxy : x = y
      · subst hxy
        simp only [charListLE, if_pos rfl] at hab hba
        rw [ih ys hab hba]
      · simp only [charListLE, if_neg hxy] at hab
        simp only [charListLE, if_neg (Ne.symm hxy)] at hba
        have h1 : x < y := by simpa using hab
        have h2 : y < x := by simpa using hba
        exact absurd (lt_trans h1 h2) (lt_irrefl x)

instance {α : Type} : IsTotal (String × α) keyLE :=
  ⟨fun p q => charListLE_total p.1.data q.1.data⟩

instance {α : Type} : IsTrans (String × α) keyLE :=
  ⟨fun _ _ _ h1 h2 => charListLE_trans _ _ _ h1 h2⟩

/-- Sort map entries by key, as the YAML serialiser does. -/
def sortKeys {α : Type} (l : List (String × α)) : List (String × α) :=
  List.insertionSort keyLE l

/-- Serialise a sorted list of string entries. -/
def serializeEntries : List (String × String) → String
  | [] => ""
  | (k, v) :: rest => k ++ ": " ++ v ++ "\n" ++ serializeEntries rest

/-- Modelled from the spec: the YAML serialiser (yaml.Marshal, an
external library) re-serialises a cleaned mapping to canonical text; it
writes map entries sorted by key at every level. -/
def serializeVal : YVal → String
  | .atom s => s
  | .mapv m => "<" ++ serializeEntries (sortKeys m) ++ ">"

/-- Canonical text of a whole document: entries sorted by key, each
value serialised. -/
def marshal (d : Doc) : String :=
  serializeEntries (sortKeys (d.map (fun p => (p.1, serializeVal p.2))))

/-- A span of the rendered diff. -/
inductive DiffOp where
  | del
  | ins
  | eq
deriving DecidableEq, Repr

/-- One span of the rendered diff: an operation and its text. -/
structure DiffSpan where
  op : DiffOp
  text : String
deriving DecidableEq, Repr

/-- Modelled from the spec: the character diff (diffmatchpatch.DiffMain,
an external library) at its interface.  Equal inputs produce a single
unchanged span, exactly as the library's equality fast path does;
distinct inputs produce at least one insertion or deletion. -/
def diffMain (a b : String) : List DiffSpan :=
  if a = b then
    if a = "" then [] else [⟨.eq, a⟩]
  else
    [⟨.del, a⟩, ⟨.ins, b⟩]

/-- A rendered diff is a no-op when it has no insertion and no deletion
(DiffPrettyText prints only unchanged text). -/
def diffIsNoOp (ds : List DiffSpan) : Bool :=
  ds.all (fun d => d.op = DiffOp.eq)

/-- showDiff after parsing: clean both documents, re-serialise them, and
diff the canonical texts. -/
def showDiffRendered (before after : Doc) : List DiffSpan :=
  diffMain (marshal (removeUnwantedFields before))
    (marshal (removeUnwantedFields after))

/-- Keys of an association list. -/
def keysOf {α : Type} (l : List (String × α)) : List String := l.map Prod.fst

/-- Unique keys (a parsed map). -/
def NodupKeys {α : Type} (l : List (String × α)) : Prop := (keysOf l).Nodup

instance {α : Type} (l : List (String × α)) : Decidable (NodupKeys l) :=
  inferInstanceAs (Decidable (keysOf l).Nodup)

/-- Unique keys inside the metadata map, when there is one. -/
def MetaNodup (d : Doc) : Prop :=
  match lookupL "metadata" d with
  | some (.mapv m) => NodupKeys m
  | _ => True

instance (d : Doc) : Decidable (MetaNodup d) := by
  unfold MetaNodup
  rcases lookupL "metadata" d with _ | v
  · exact inferInstanceAs (Decidable True)
  · rcases v with s | m
    · exact inferInstanceAs (Decidable True)
    · exact inferInstanceAs (Decidable (NodupKeys m))

/-- A document is a parsed map at the levels the code inspects: unique
top-level keys, and unique keys inside a metadata map. -/
def DocParsed (d : Doc) : Prop :=
  NodupKeys d ∧ MetaNodup d

instance (d : Doc) : Decidable (DocParsed d) :=
  inferInstanceAs (Decidable (NodupKeys d ∧ MetaNodup d))

/-- Agreement of the two metadata fields outside the volatile keys: both
are maps that agree on every non-volatile key, or they are equal as they
stand (a metadata value that is not a map is never rewritten). -/
def MetaAgree (d1 d2 : Doc) : Prop :=
  match lookupL "metadata" d1, lookupL "metadata" d2 with
  | some (.mapv m1), some (.mapv m2) =>
    ∀ k ∈ keysOf m1 ++ keysOf m2, k ∉ volatileMetaKeys →
      lookupL k m1 = lookupL k m2
  | v1, v2 => v1 = v2

instance (d1 d2 : Doc) : Decidable (MetaAgree d1 d2) := by
  unfold MetaAgree
  rcases lookupL "metadata" d1 with _ | v1 <;> rcases h2 : lookupL "metadata" d2 with _ | v2
  · exact inferInstanceAs (Decidable (_ = _))
  · exact inferInstanceAs (Decidable (_ = _))
  · rcases v1 with s1 | m1
    · exact inferInstanceAs (Decidable (_ = _))
    · exact inferInstanceAs (Decidable (_ = _))
  · rcases v1 with s1 | m1 <;> rcases v2 with s2 | m2
    · exact inferInstanceAs (Decidable (_ = _))
    · exact inferInstanceAs (Decidable (_ = _))
    · exact inferInstanceAs (Decidable (_ = _))
    · exact inferInstanceAs
        (Decidable (∀ k ∈ keysOf m1 ++ keysOf m2, k ∉ volatileMetaKeys →
          lookupL k m1 = lookupL k m2))

/-- The claim's hypothesis, in the spec's words: the two documents agree
on every top-level field other than status and metadata, and their
metadata fields agree except possibly on the volatile keys. -/
def DifferOnlyInVolatile (d1 d2 : Doc) : Prop :=
  (∀ k ∈ keysOf d1 ++ keysOf d2, k ≠ "status" → k ≠ "metadata" →
    lookupL k d1 = lookupL k d2) ∧ MetaAgree d1 d2

instance (d1 d2 : Doc) : Decidable (DifferOnlyInVolatile d1 d2) :=
  inferInstanceAs (Decidable (_ ∧ MetaAgree d1 d2))

/-! ### Lemmas about the analyzer -/

theorem analyzeStep_eq (acc : Bool × List ResourceChange) (raw : List Char) :
    analyzeStep acc raw =
      match lineChange raw with
      | none => acc
      | some ch => (acc.1 || isChangeOp ch, acc.2 ++ [ch]) := by
  unfold analyzeStep lineChange
  by_cases h : goTrimSpaceL raw = []
  · simp [h]
  · simp only [if_neg h]

theorem analyze_foldl (lines : List (List Char)) :
    ∀ b l, lines.foldl analyzeStep (b, l) =
      (b || (lines.filterMap lineChange).any isChangeOp,
       l ++ lines.filterMap lineChange) := by
  induction lines with
  | nil => intro b l; simp
  | cons raw rest ih =>
    intro b l
    rw [List.foldl_cons, analyzeStep_eq]
    cases h : lineChange raw with
    | none => simp [List.filterMap_cons, h, ih b l]
    | some ch =>
      simp only [List.filterMap_cons, h]
      rw [ih]
      simp [Bool.or_assoc]

theorem analyzeKubectlOutput_eq (output : String) :
    analyzeKubectlOutput output =
      (((splitChar '\n' output.data).filterMap lineChange).any isChangeOp,
       (splitChar '\n' output.data).filterMap lineChange) := by
  unfold analyzeKubectlOutput
  rw [analyze_foldl]
  simp

theorem isChangeOp_iff (ch : ResourceChange) :
    isChangeOp ch = true ↔
      (ch.operation = "Created" ∨ ch.operation = "Configured" ∨
        ch.operation = "Deleted") := by
  simp [isChangeOp, Bool.or_eq_true, or_assoc]

/-- Every hit of the token scan is one of the four operation words. -/
theorem findOpWord_mem : ∀ (i : Nat) (ws : List (List Char)) (j : Nat)
    (w : List Char), findOpWord i ws = some (j, w) → w ∈ opWords := by
  intro i ws
  induction ws generalizing i with
  | nil => intro j w h; simp [findOpWord] at h
  | cons x xs ih =>
    intro j w h
    unfold findOpWord at h
    by_cases hx : x ∈ opWords
    · simp only [if_pos hx] at h
      cases h
      exact hx
    · simp only [if_neg hx] at h
      exact ih (i + 1) j w h

/-- When no token is an operation word, the scan finds nothing. -/
theorem findOpWord_none (i : Nat) (ws : List (List Char))
    (h : ∀ w ∈ ws, w ∉ opWords) : findOpWord i ws = none := by
  induction ws generalizing i with
  | nil => rfl
  | cons x xs ih =>
    unfold findOpWord
    rw [if_neg (h x (List.mem_cons_self x xs))]
    exact ih (i + 1) (fun w hw => h w (List.mem_cons_of_mem x hw))

/-- Every hit of the token scan is an element of the scanned tokens. -/
theorem findOpWord_mem_list : ∀ (i : Nat) (ws : List (List Char)) (j : Nat)
    (w : List Char), findOpWord i ws = some (j, w) → w ∈ ws := by
  intro i ws
  induction ws generalizing i with
  | nil => intro j w h; simp [findOpWord] at h
  | cons x xs ih =>
    intro j w h
    unfold findOpWord at h
    by_cases hx : x ∈ opWords
    · simp only [if_pos hx] at h
      cases h
      exact List.mem_cons_self x xs
    · simp only [if_neg hx] at h
      exact List.mem_cons_of_mem x (ih (i + 1) j w h)

/-- With three or more tokens, the chosen operation is empty, or it is
one of the four operation words and an element of the token list. -/
theorem selectParts_op (p0 p1 : List Char) (rest : List (List Char))
    (hrest : rest ≠ []) :
    (selectParts p0 p1 rest).2 = [] ∨
      ((selectParts p0 p1 rest).2 ∈ opWords ∧
        (selectParts p0 p1 rest).2 ∈ p0 :: p1 :: rest) := by
  unfold selectParts
  rw [if_neg hrest]
  by_cases hc : (p0 :: p1 :: rest).length = 3 ∧ p1 = '"' :: goTrimCharL '"' p1 ∧
      (p0 :: p1 :: rest).getD 2 [] = "deleted".data
  · rw [if_pos hc]
    right
    constructor
    · rw [hc.2.2]
      simp [opWords]
    · cases rest with
      | nil => exact absurd rfl hrest
      | cons r2 rs => simp [List.getD]
  · rw [if_neg hc]
    cases hf : findOpWord 0 (p0 :: p1 :: rest) with
    | none => left; rfl
    | some iw =>
      right
      exact ⟨findOpWord_mem 0 _ iw.1 iw.2 (by simpa using hf),
        findOpWord_mem_list 0 _ iw.1 iw.2 (by simpa using hf)⟩

/-- The capitalisation of an operation word. -/
theorem normalizeOp_of_opWord (w : List Char) (hw : w ∈ opWords) :
    String.mk (normalizeOp w) = "Created" ∨
    String.mk (normalizeOp w) = "Configured" ∨
    String.mk (normalizeOp w) = "Unchanged" ∨
    String.mk (normalizeOp w) = "Deleted" := by
  simp only [opWords, List.mem_cons, List.mem_singleton, List.not_mem_nil,
    or_false] at hw
  rcases hw with h | h | h | h <;> subst h <;> decide

/-- C1.  For every captured output text, the aggregate change flag of
analyzeKubectlOutput is true exactly when some line of the output
yields, after trimming and parsing, a ResourceChange classified Created,
Configured or Deleted; in particular a line classified Unchanged never
raises the flag. -/
theorem analyzeKubectlOutput_flag_iff (output : String) :
    (analyzeKubectlOutput output).1 = true ↔
      ∃ raw ∈ splitChar '\n' output.data, ∃ ch,
        lineChange raw = some ch ∧
          (ch.operation = "Created" ∨ ch.operation = "Configured" ∨
            ch.operation = "Deleted") := by
  rw [analyzeKubectlOutput_eq]
  simp only [List.any_eq_true, List.mem_filterMap]
  constructor
  · rintro ⟨ch, ⟨raw, hraw, hlc⟩, hop⟩
    exact ⟨raw, hraw, ch, hlc, (isChangeOp_iff ch).mp hop⟩
  · rintro ⟨raw, hraw, ch, hlc, hop⟩
    exact ⟨ch, ⟨raw, hraw, hlc⟩, (isChangeOp_iff ch).mpr hop⟩

/-- C2 counterexample.  The two-token line "pod frobbed" is emitted with
the verbatim operation "frobbed", which is none of the four normalized
operations: the claimed universal fails at this concrete input. -/
theorem analyzeKubectlOutput_nonnormal_op :
    ¬ (∀ ch ∈ (analyzeKubectlOutput "pod frobbed").2,
        ch.operation = "Created" ∨ ch.operation = "Configured" ∨
        ch.operation = "Unchanged" ∨ ch.operation = "Deleted") := by
  decide

/-- Lines of three or more tokens containing no operation word are
ignored. -/
theorem parseLine_none_of_no_opword (line : List Char)
    (hlen : 3 ≤ (goFieldsL line).length)
    (hno : ∀ w ∈ goFieldsL line, w ∉ opWords) : parseLine line = none := by
  unfold parseLine
  cases hf : goFieldsL line with
  | nil => rfl
  | cons p0 tl =>
    cases tl with
    | nil => rfl
    | cons p1 rest =>
      have hrest : rest ≠ [] := by
        intro h
        rw [hf, h] at hlen
        simp at hlen
      rcases selectParts_op p0 p1 rest hrest with hop | hop
      · simp [hop]
      · exact absurd hop.1 (hno _ (hf ▸ hop.2))

/-- The four operation words are non-empty. -/
theorem opWord_ne_nil (w : List Char) (hw : w ∈ opWords) : w ≠ [] := by
  simp only [opWords, List.mem_cons, List.mem_singleton, List.not_mem_nil,
    or_false] at hw
  rcases hw with h | h | h | h <;> subst h <;> decide

/-- C2 (amended).  Every ResourceChange emitted by analyzeKubectlOutput
either carries one of the four normalized operations Created,
Configured, Unchanged, Deleted, or was emitted by a two-token line,
whose second token is passed through as the operation (capitalised only
when it matches one of the four words case-insensitively); and every
line of three or more tokens containing none of the four literal
operation words contributes no ResourceChange (and causes no error:
the analyzer is total). -/
theorem analyzeKubectlOutput_operations_amended (output : String)
    (ch : ResourceChange) (h : ch ∈ (analyzeKubectlOutput output).2) :
    (ch.operation = "Created" ∨ ch.operation = "Configured" ∨
      ch.operation = "Unchanged" ∨ ch.operation = "Deleted" ∨
      ∃ raw ∈ splitChar '\n' output.data,
        (goFieldsL (goTrimSpaceL raw)).length = 2 ∧ lineChange raw = some ch) ∧
    ∀ line : List Char, 3 ≤ (goFieldsL line).length →
      (∀ w ∈ goFieldsL line, w ∉ opWords) → parseLine line = none := by
  refine ⟨?_, fun line h1 h2 => parseLine_none_of_no_opword line h1 h2⟩
  rw [analyzeKubectlOutput_eq] at h
  simp only [List.mem_filterMap] at h
  obtain ⟨raw, hraw, hlc0⟩ := h
  have hlc := hlc0
  unfold lineChange at hlc
  by_cases hb : goTrimSpaceL raw = []
  · rw [if_pos hb] at hlc
    exact absurd hlc (by simp)
  · rw [if_neg hb] at hlc
    unfold parseLine at hlc
    cases hf : goFieldsL (goTrimSpaceL raw) with
    | nil =>
      rw [hf] at hlc
      exact absurd hlc (by simp)
    | cons p0 tl =>
      cases tl with
      | nil =>
        rw [hf] at hlc
        exact absurd hlc (by simp)
      | cons p1 rest =>
        rw [hf] at hlc
        dsimp only at hlc
        by_cases hrest : rest = []
        · subst hrest
          refine Or.inr (Or.inr (Or.inr (Or.inr ⟨raw, hraw, ?_, hlc0⟩)))
          rw [hf]
          rfl
        · rcases selectParts_op p0 p1 rest hrest with hop | hop
          · rw [hop] at hlc
            exact absurd hlc (by simp)
          · have hne := opWord_ne_nil _ hop.1
            rw [if_pos hne] at hlc
            have hcheq : ch.operation = String.mk (normalizeOp (selectParts p0 p1 rest).2) := by
              cases hlc
              rfl
            rcases normalizeOp_of_opWord _ hop.1 with h4 | h4 | h4 | h4 <;>
              rw [hcheq, h4] <;> simp

/-- Witness for the amended C2 theorem: the concrete output
"pod frobbed" emits the change (pod, frobbed) through the two-token
case. -/
theorem analyzeKubectlOutput_operations_amended_witness :
    (((⟨"pod", "frobbed"⟩ : ResourceChange).operation = "Created" ∨
      (⟨"pod", "frobbed"⟩ : ResourceChange).operation = "Configured" ∨
      (⟨"pod", "frobbed"⟩ : ResourceChange).operation = "Unchanged" ∨
      (⟨"pod", "frobbed"⟩ : ResourceChange).operation = "Deleted" ∨
      ∃ raw ∈ splitChar '\n' ("pod frobbed" : String).data,
        (goFieldsL (goTrimSpaceL raw)).length = 2 ∧
          lineChange raw = some ⟨"pod", "frobbed"⟩) ∧
      ∀ line : List Char, 3 ≤ (goFieldsL line).length →
        (∀ w ∈ goFieldsL line, w ∉ opWords) → parseLine line = none) :=
  analyzeKubectlOutput_operations_amended "pod frobbed" ⟨"pod", "frobbed"⟩
    (by decide)

/-- C3 (code-bug evaluation).  At the documented three-token delete line
the source's quote test compares the middle token with a leading quote
prepended to its quote-trimmed form, which a token that ends in a quote
never equals; the line therefore falls into the generic token scan and
the emitted resource keeps the quoted middle token and the separating
space instead of the specified slash form resource/name. -/
theorem analyzeKubectlOutput_delete_line_eval :
    analyzeKubectlOutput "configmap \"test-config\" deleted" =
      (true, [⟨"configmap \"test-config\"", "Deleted"⟩]) := by
  decide

/-! ### Lemmas about the record store -/

theorem lookupKey_append_some {α : Type} (k : ObjKey) (v : α)
    (l1 l2 : List (ObjKey × α)) (h : lookupKey k l1 = some v) :
    lookupKey k (l1 ++ l2) = some v := by
  induction l1 with
  | nil => simp [lookupKey] at h
  | cons p t ih =>
    rcases p with ⟨pk, pv⟩
    rw [List.cons_append]
    unfold lookupKey at h ⊢
    by_cases hp : pk = k
    · rw [if_pos hp] at h ⊢
      exact h
    · rw [if_neg hp] at h ⊢
      exact ih h

theorem lookupKey_updateKey {α : Type} (k skey : ObjKey) (v : α)
    (l : List (ObjKey × α)) :
    lookupKey k (updateKey skey v l) =
      if k = skey then (lookupKey skey l).map (fun _ => v)
      else lookupKey k l := by
  induction l with
  | nil => by_cases h : k = skey <;> simp [updateKey, lookupKey, h]
  | cons p t ih =>
    rcases p with ⟨pk, pv⟩
    show lookupKey k
        ((if pk = skey then (skey, v) else (pk, pv)) :: updateKey skey v t) = _
    by_cases hpk : pk = skey
    · rw [if_pos hpk]
      subst hpk
      by_cases hk : pk = k
      · subst hk
        simp [lookupKey]
      · have hk' : ¬k = pk := fun h => hk h.symm
        simp [lookupKey, hk, hk', ih]
    · rw [if_neg hpk]
      by_cases hk : pk = k
      · subst hk
        have hks : ¬pk = skey := hpk
        simp [lookupKey, hks]
      · simp [lookupKey, hk, hpk, ih]

theorem lookupKey_removeKey {α : Type} (k skey : ObjKey)
    (l : List (ObjKey × α)) :
    lookupKey k (removeKey skey l) =
      if k = skey then none else lookupKey k l := by
  induction l with
  | nil => by_cases h : k = skey <;> simp [removeKey, lookupKey, h]
  | cons p t ih =>
    rcases p with ⟨pk, pv⟩
    by_cases hpk : pk = skey
    · subst hpk
      have : removeKey pk ((pk, pv) :: t) = removeKey pk t := by
        simp [removeKey]
      rw [this, ih]
      by_cases hk : k = pk
      · simp [hk]
      · have hk2 : ¬pk = k := fun h => hk h.symm
        simp [lookupKey, hk, hk2]
    · have : removeKey skey ((pk, pv) :: t) = (pk, pv) :: removeKey skey t := by
        simp [removeKey, hpk]
      rw [this]
      by_cases hk : pk = k
      · subst hk
        simp [lookupKey, hpk]
      · simp [lookupKey, hk, ih]

/-- Pointwise sufficient condition for the code's step discipline. -/
theorem codePhaseStep_of_pointwise (s1 s2 : Store)
    (h : ∀ k p1 p2, phaseAt s1 k = some p1 → phaseAt s2 k = some p2 →
      p1 = p2 ∨ p2 = Phase.completed ∨ p2 = Phase.noChanges) :
    codePhaseStep s1 s2 = true := by
  unfold codePhaseStep
  rw [List.all_eq_true]
  intro k hk
  cases h1 : phaseAt s1 k with
  | none => simp [h1]
  | some p1 =>
    cases h2 : phaseAt s2 k with
    | none => simp [h1, h2]
    | some p2 =>
      rcases h k p1 p2 h1 h2 with he | he | he <;> simp [h1, h2, he]

/-- Writes that do not touch the snapshot store satisfy the discipline. -/
theorem codePhaseStep_snapshots_eq (s1 s2 : Store)
    (h : s2.snapshots = s1.snapshots) : codePhaseStep s1 s2 = true := by
  apply codePhaseStep_of_pointwise
  intro k p1 p2 h1 h2
  left
  rw [phaseAt, h] at h2
  rw [phaseAt] at h1
  rw [h1] at h2
  simpa using h2

/-- Appending a snapshot under a fresh key satisfies the discipline. -/
theorem codePhaseStep_append (st : Store) (key : ObjKey) (v : SnapshotRec) :
    codePhaseStep st
      { st with snapshots := st.snapshots ++ [(key, v)] } = true := by
  apply codePhaseStep_of_pointwise
  intro k p1 p2 h1 h2
  left
  rw [phaseAt] at h1 h2
  cases hl : lookupKey k st.snapshots with
  | none => rw [hl] at h1; simp at h1
  | some r =>
    rw [hl] at h1
    have : lookupKey k (st.snapshots ++ [(key, v)]) = some r :=
      lookupKey_append_some k r _ _ hl
    simp only [this] at h2
    simp only [Option.map_some'] at h1 h2
    rw [← Option.some_inj.mp h1, ← Option.some_inj.mp h2]

/-- Overwriting a snapshot with a Completed or NoChanges record
satisfies the discipline. -/
theorem codePhaseStep_update (st : Store) (skey : ObjKey)
    (v : SnapshotRec)
    (hv : v.phase = Phase.completed ∨ v.phase = Phase.noChanges) :
    codePhaseStep st
      { st with snapshots := updateKey skey v st.snapshots } = true := by
  apply codePhaseStep_of_pointwise
  intro k p1 p2 h1 h2
  rw [phaseAt] at h1 h2
  simp only [lookupKey_updateKey] at h2
  by_cases hk : k = skey
  · rw [if_pos hk] at h2
    subst hk
    cases hl : lookupKey k st.snapshots with
    | none => rw [hl] at h2; simp at h2
    | some r =>
      rw [hl] at h2
      simp only [Option.map_some'] at h2
      right
      rw [← Option.some_inj.mp h2]
      exact hv
  · rw [if_neg hk] at h2
    left
    rw [h1] at h2
    simpa using h2

/-- Deleting a snapshot satisfies the discipline. -/
theorem codePhaseStep_remove (st : Store) (skey : ObjKey) :
    codePhaseStep st
      { st with snapshots := removeKey skey st.snapshots } = true := by
  apply codePhaseStep_of_pointwise
  intro k p1 p2 h1 h2
  rw [phaseAt] at h1 h2
  simp only [lookupKey_removeKey] at h2
  by_cases hk : k = skey
  · rw [if_pos hk] at h2
    simp at h2
  · rw [if_neg hk] at h2
    left
    rw [h1] at h2
    simpa using h2

theorem chainB_append (p : Store → Store → Bool) :
    ∀ (l1 : List Store) (x : Store) (l2 : List Store),
    chainB p (x :: (l1 ++ l2)) =
      (chainB p (x :: l1) && chainB p (lastStore x l1 :: l2)) := by
  intro l1
  induction l1 with
  | nil => intro x l2; simp [chainB, lastStore]
  | cons y t ih =>
    intro x l2
    simp only [List.cons_append, chainB, lastStore, List.append_eq, ih y l2,
      Bool.and_assoc]

/-- Every coordinator call writes a chain of states obeying the code's
discipline, ending at the call's final store. -/
theorem runCmd_chain (st : Store) (c : StoreCmd) :
    chainB codePhaseStep (st :: (runCmd st c).2) = true ∧
      lastStore st (runCmd st c).2 = (runCmd st c).1 := by
  cases c with
  | createSnap name manifest ns ok =>
    unfold runCmd createSnapshot
    dsimp only
    split
    · refine ⟨?_, rfl⟩
      simp only [chainB, Bool.and_true]
      exact codePhaseStep_append _ _ _
    · exact ⟨rfl, rfl⟩
  | createHist hname manifest snapName ns cOk uOk =>
    unfold runCmd createHistory
    dsimp only
    split
    · split
      · split
        · refine ⟨?_, rfl⟩
          simp only [chainB, Bool.and_true]
          rw [Bool.and_eq_true]
          constructor
          · exact codePhaseStep_snapshots_eq _ _ rfl
          · exact codePhaseStep_update _ _ _ (Or.inl rfl)
        · refine ⟨?_, rfl⟩
          simp only [chainB, Bool.and_true]
          exact codePhaseStep_snapshots_eq _ _ rfl
      · refine ⟨?_, rfl⟩
        simp only [chainB, Bool.and_true]
        exact codePhaseStep_snapshots_eq _ _ rfl
    · exact ⟨rfl, rfl⟩
  | cleanupSnap snapName ns uOk dOk =>
    unfold runCmd cleanupSnapshot
    dsimp only
    split
    · exact ⟨rfl, rfl⟩
    · cases uOk <;> cases dOk <;> dsimp only
      · exact ⟨rfl, rfl⟩
      · refine ⟨?_, rfl⟩
        simp only [chainB, Bool.and_true]
        exact codePhaseStep_remove _ _
      · refine ⟨?_, rfl⟩
        simp only [chainB, Bool.and_true]
        exact codePhaseStep_update _ _ _ (Or.inr rfl)
      · refine ⟨?_, rfl⟩
        simp only [chainB, Bool.and_true]
        rw [Bool.and_eq_true]
        exact ⟨codePhaseStep_update _ _ _ (Or.inr rfl), codePhaseStep_remove _ _⟩

/-- C4 (amended).  Under every sequence of coordinator calls from the
empty store, adjacent reachable store states obey the code's phase
discipline: a snapshot's phase either stays put or moves to Completed or
NoChanges; no transition re-enters Pending. -/
theorem snapshot_phase_transitions_amended (cmds : List StoreCmd) :
    chainB codePhaseStep (fullTrace cmds) = true := by
  unfold fullTrace
  suffices h : ∀ (cs : List StoreCmd) (st : Store),
      chainB codePhaseStep (st :: traceStates st cs) = true from
    h cmds Store.empty
  intro cs
  induction cs with
  | nil => intro st; rfl
  | cons c rest ih =>
    intro st
    show chainB codePhaseStep (st :: ((runCmd st c).2 ++
      traceStates (runCmd st c).1 rest)) = true
    rw [chainB_append, (runCmd_chain st c).2, Bool.and_eq_true]
    exact ⟨(runCmd_chain st c).1, ih (runCmd st c).1⟩

/-- The concrete call sequence refuting the claimed discipline: create a
snapshot, link it to a history (phase Completed), then clean it up. -/
def c4Trace : List StoreCmd :=
  [.createSnap "s" "m" "" true,
   .createHist "h" "m2" "s" "" true true,
   .cleanupSnap "s" "" true true]

/-- C4 counterexample.  On the concrete trace the snapshot at key
(s, default) is Completed in the fourth reachable state and NoChanges in
the fifth: a Completed-to-NoChanges transition, so the claimed
discipline fails on an adjacent pair of reachable states. -/
theorem snapshot_phase_claim_violated :
    chainB claimPhaseStep (fullTrace c4Trace) = false ∧
    ((fullTrace c4Trace)[3]?).bind
        (fun σ => phaseAt σ ("s", "default")) = some Phase.completed ∧
    ((fullTrace c4Trace)[4]?).bind
        (fun σ => phaseAt σ ("s", "default")) = some Phase.noChanges := by
  decide

/-- C5.  When the History create succeeds and the referenced Snapshot is
absent from the store, createHistory reports success, the History is
persisted, and the snapshot store is untouched. -/
theorem createHistory_snapshot_absent_ok (st : Store)
    (historyName manifestContent snapshotName ns : String) (updateOk : Bool)
    (hfresh : lookupKey (historyName, getTargetNamespace ns) st.histories = none)
    (habsent : lookupKey (snapshotName, getTargetNamespace ns) st.snapshots = none) :
    (createHistory st historyName manifestContent snapshotName ns true updateOk).2.1 =
      OpResult.ok ∧
    (createHistory st historyName manifestContent snapshotName ns true updateOk).1.histories =
      st.histories ++ [((historyName, getTargetNamespace ns),
        ⟨manifestContent, snapshotName⟩)] ∧
    (createHistory st historyName manifestContent snapshotName ns true updateOk).1.snapshots =
      st.snapshots := by
  unfold createHistory
  simp [hfresh, habsent]

/-- Witness for C5 at the empty store. -/
theorem createHistory_snapshot_absent_ok_witness :
    (createHistory Store.empty "h" "m" "s" "" true true).2.1 = OpResult.ok ∧
    (createHistory Store.empty "h" "m" "s" "" true true).1.histories =
      Store.empty.histories ++ [(("h", getTargetNamespace ""), ⟨"m", "s"⟩)] ∧
    (createHistory Store.empty "h" "m" "s" "" true true).1.snapshots =
      Store.empty.snapshots :=
  createHistory_snapshot_absent_ok Store.empty "h" "m" "s" "" true
    (by decide) (by decide)

/-- C10.  createHistory orders its writes: when the History create call
fails, the call returns an error with the store untouched (no snapshot
modification attempted); when the create succeeds, the snapshot exists
and the status update fails, the call still returns an error, yet the
History is already durably persisted and the snapshots are unchanged. -/
theorem createHistory_write_order (st : Store)
    (historyName manifestContent snapshotName ns : String)
    (snap : SnapshotRec)
    (hfresh : lookupKey (historyName, getTargetNamespace ns) st.histories = none)
    (hsnap : lookupKey (snapshotName, getTargetNamespace ns) st.snapshots = some snap) :
    (∀ uOk, createHistory st historyName manifestContent snapshotName ns false uOk =
      (st, OpResult.error, [])) ∧
    (createHistory st historyName manifestContent snapshotName ns true false).2.1 =
      OpResult.error ∧
    (createHistory st historyName manifestContent snapshotName ns true false).1.histories =
      st.histories ++ [((historyName, getTargetNamespace ns),
        ⟨manifestContent, snapshotName⟩)] ∧
    (createHistory st historyName manifestContent snapshotName ns true false).1.snapshots =
      st.snapshots := by
  refine ⟨fun uOk => ?_, ?_⟩
  · unfold createHistory
    simp
  · unfold createHistory
    have : lookupKey (snapshotName, getTargetNamespace ns)
        ({ st with histories := st.histories ++
          [((historyName, getTargetNamespace ns),
            ⟨manifestContent, snapshotName⟩)] } : Store).snapshots = some snap := hsnap
    simp [hfresh, this]

/-- Witness for C10 at a one-snapshot store. -/
theorem createHistory_write_order_witness :
    (∀ uOk, createHistory
        ⟨[(("s", "default"), ⟨"m", Phase.pending, "", ""⟩)], []⟩
        "h" "m2" "s" "" false uOk =
      (⟨[(("s", "default"), ⟨"m", Phase.pending, "", ""⟩)], []⟩,
        OpResult.error, [])) ∧
    (createHistory ⟨[(("s", "default"), ⟨"m", Phase.pending, "", ""⟩)], []⟩
        "h" "m2" "s" "" true false).2.1 = OpResult.error ∧
    (createHistory ⟨[(("s", "default"), ⟨"m", Phase.pending, "", ""⟩)], []⟩
        "h" "m2" "s" "" true false).1.histories =
      (⟨[(("s", "default"), ⟨"m", Phase.pending, "", ""⟩)], []⟩ : Store).histories ++
        [(("h", getTargetNamespace ""), ⟨"m2", "s"⟩)] ∧
    (createHistory ⟨[(("s", "default"), ⟨"m", Phase.pending, "", ""⟩)], []⟩
        "h" "m2" "s" "" true false).1.snapshots =
      (⟨[(("s", "default"), ⟨"m", Phase.pending, "", ""⟩)], []⟩ : Store).snapshots :=
  createHistory_write_order
    ⟨[(("s", "default"), ⟨"m", Phase.pending, "", ""⟩)], []⟩
    "h" "m2" "s" "" ⟨"m", Phase.pending, "", ""⟩ (by decide) (by decide)

/-! ### Lemmas about isValidKubernetesName -/

theorem runeSize_pos (c : Char) : 1 ≤ runeSize c := by
  unfold runeSize
  split_ifs <;> omega

theorem byteLen_ge_length (l : List Char) : l.length ≤ byteLen l := by
  induction l with
  | nil => simp [byteLen]
  | cons c t ih =>
    have h := runeSize_pos c
    simp only [byteLen, List.map_cons, List.sum_cons, List.length_cons] at ih ⊢
    omega

theorem nameCharOk_toNat_lt (c : Char) (h : nameCharOk c = true) :
    c.toNat < 128 := by
  simp only [nameCharOk, isLowerAlnum, Bool.or_eq_true, Bool.and_eq_true,
    decide_eq_true_eq] at h
  rcases h with ((⟨_, h2⟩ | ⟨_, h2⟩) | h) | h
  · omega
  · omega
  · subst h; decide
  · subst h; decide

theorem runeSize_eq_one (c : Char) (h : nameCharOk c = true) :
    runeSize c = 1 := by
  unfold runeSize
  rw [if_pos]
  exact Nat.lt_of_lt_of_le (nameCharOk_toNat_lt c h) (by omega)

theorem byteLen_eq_length (l : List Char)
    (h : ∀ c ∈ l, nameCharOk c = true) : byteLen l = l.length := by
  induction l with
  | nil => simp [byteLen]
  | cons c t ih =>
    have h1 := runeSize_eq_one c (h c (List.mem_cons_self c t))
    have h2 := ih (fun x hx => h x (List.mem_cons_of_mem c hx))
    simp only [byteLen, List.map_cons, List.sum_cons, List.length_cons] at h2 ⊢
    omega

theorem validNameLoop_false_of_bad (l : List Char) :
    ∀ (total i : Nat) (x : Char), x ∈ l → nameCharOk x = false →
    validNameLoop total i l = false := by
  induction l with
  | nil => intro total i x hx _; simp at hx
  | cons c rest ih =>
    intro total i x hx hbad
    rcases List.mem_cons.mp hx with he | hm
    · subst he
      unfold validNameLoop
      rw [hbad]
      rfl
    · unfold validNameLoop
      split_ifs
      · rfl
      · rfl
      · rfl
      · exact ih total (i + runeSize c) x hm hbad

theorem validNameLoop_all_ok (l : List Char) :
    ∀ (total i : Nat), (∀ c ∈ l, nameCharOk c = true) →
    l ≠ [] → i + l.length = total →
    validNameLoop total i l =
      ((!decide (i = 0) || isLowerAlnum (l.headD 'x')) &&
        isLowerAlnum (l.getLastD 'x')) := by
  induction l with
  | nil => intro total i _ hne _; exact absurd rfl hne
  | cons c rest ih =>
    intro total i hok hne htot
    have hc : nameCharOk c = true := hok c (List.mem_cons_self c rest)
    have hc1 : runeSize c = 1 := runeSize_eq_one c hc
    cases rest with
    | nil =>
      have hi : i = total - 1 := by
        simp only [List.length_cons, List.length_nil] at htot
        omega
      unfold validNameLoop
      rw [hc]
      cases ha : isLowerAlnum c <;> by_cases hz : i = 0 <;>
        simp [ha, hz, hi, validNameLoop]
    | cons c2 rest2 =>
      have hnz : ¬i = total - 1 := by
        simp only [List.length_cons] at htot
        omega
      have hrec := ih total (i + runeSize c)
        (fun x hx => hok x (List.mem_cons_of_mem c hx)) (by simp)
        (by simp only [List.length_cons] at htot ⊢; omega)
      have hnz2 : ¬i + runeSize c = 0 := by
        have := runeSize_pos c
        omega
      unfold validNameLoop
      rw [hc]
      by_cases hz : i = 0
      · subst hz
        simp only [Nat.zero_add] at hrec hnz2
        cases ha : isLowerAlnum c
        · simp [ha]
        · simp [ha, hnz, hrec, hnz2, List.getLastD_cons]
      · cases ha : isLowerAlnum c
        · simp [ha, hz, hnz, hrec, hnz2, List.getLastD_cons]
        · simp [ha, hz, hnz, hrec, hnz2, List.getLastD_cons]

/-- C8.  isValidKubernetesName agrees with the spec's rule on every
string: accepted exactly when non-empty, at most 253 characters, built
from lowercase letters, digits, dash and dot, and starting and ending
alphanumeric; the spec's sample accepts and rejects hold, and every
254-character string is rejected. -/
theorem isValidKubernetesName_spec :
    (∀ s : String, isValidKubernetesName s = specValidName s) ∧
    isValidKubernetesName "my-name.example" = true ∧
    isValidKubernetesName "a" = true ∧
    isValidKubernetesName "" = false ∧
    isValidKubernetesName "My_Name" = false ∧
    isValidKubernetesName "-leading" = false ∧
    isValidKubernetesName "trailing-" = false ∧
    (∀ s : String, s.data.length = 254 → isValidKubernetesName s = false) := by
  have hmain : ∀ s : String, isValidKubernetesName s = specValidName s := by
    intro s
    unfold isValidKubernetesName specValidName
    cases hl : s.data with
    | nil => simp
    | cons c0 t0 =>
      by_cases hok : ∀ c ∈ c0 :: t0, nameCharOk c = true
      · have hbl : byteLen (c0 :: t0) = (c0 :: t0).length :=
          byteLen_eq_length _ hok
        have hall : (c0 :: t0).all nameCharOk = true := by
          rw [List.all_eq_true]
          exact hok
        by_cases hlen : (c0 :: t0).length ≤ 253
        · have hgt : ¬byteLen (c0 :: t0) > 253 := by omega
          have hloop := validNameLoop_all_ok (c0 :: t0) (byteLen (c0 :: t0)) 0
            hok (by simp) (by omega)
          have h252 : t0.length ≤ 252 := by
            simp only [List.length_cons] at hlen
            omega
          simp [hgt, hloop, hall, h252, List.getLastD_cons]
        · have hgt : byteLen (c0 :: t0) > 253 := by omega
          have h252 : ¬t0.length ≤ 252 := by
            simp only [List.length_cons] at hlen
            omega
          simp [hgt, h252]
      · push_neg at hok
        obtain ⟨x, hx, hbad⟩ := hok
        have hbad' : nameCharOk x = false := by
          cases hb : nameCharOk x
          · rfl
          · exact absurd hb hbad
        have hall : (c0 :: t0).all nameCharOk = false := by
          rw [Bool.eq_false_iff]
          intro hcon
          rw [List.all_eq_true] at hcon
          exact hbad (hcon x hx)
        by_cases hgt : byteLen (c0 :: t0) > 253
        · simp [hgt, hall]
        · have hloop := validNameLoop_false_of_bad (c0 :: t0)
            (byteLen (c0 :: t0)) 0 x hx hbad'
          simp [hgt, hloop, hall]
  refine ⟨hmain, by decide, by decide, by decide, by decide, by decide,
    by decide, ?_⟩
  intro s hlen
  unfold isValidKubernetesName
  have := byteLen_ge_length s.data
  have hgt : byteLen s.data > 253 := by omega
  simp [hgt]

set_option maxRecDepth 4000 in
/-- Witness for C8: the 254-character conjunct applied at a concrete
254-character string. -/
theorem isValidKubernetesName_spec_witness :
    isValidKubernetesName (String.mk (List.replicate 254 'a')) = false :=
  isValidKubernetesName_spec.2.2.2.2.2.2.2 (String.mk (List.replicate 254 'a'))
    (by decide)

/-! ### Lemmas about the Manifest Loader -/

theorem containsSub_cons (c : Char) (t x : List Char)
    (h : containsSub t x = true) : containsSub (c :: t) x = true := by
  unfold containsSub
  rw [h]
  simp

theorem splitChar_ne_nil (sep : Char) (l : List Char) :
    splitChar sep l ≠ [] := by
  cases l with
  | nil => simp [splitChar]
  | cons c t =>
    unfold splitChar
    by_cases h : c = sep
    · simp [h]
    · rw [if_neg h]
      cases splitChar sep t <;> simp

theorem splitChar_head_prefix (sep : Char) :
    ∀ (t h : List Char) (r : List (List Char)),
    splitChar sep t = h :: r → h.isPrefixOf t = true := by
  intro t
  induction t with
  | nil =>
    intro h r he
    simp only [splitChar] at he
    cases he
    rfl
  | cons c t' ih =>
    intro h r he
    unfold splitChar at he
    by_cases hc : c = sep
    · rw [if_pos hc] at he
      cases he
      rfl
    · rw [if_neg hc] at he
      cases hsp : splitChar sep t' with
      | nil => exact absurd hsp (splitChar_ne_nil sep t')
      | cons h2 r2 =>
        rw [hsp] at he
        injection he with he1 he2
        subst he1
        show ((c == c) && h2.isPrefixOf t') = true
        rw [beq_self_eq_true]
        simpa using ih h2 r2 hsp

theorem mem_splitChar_containsSub (sep : Char) :
    ∀ (l x : List Char), x ∈ splitChar sep l → containsSub l x = true := by
  intro l
  induction l with
  | nil =>
    intro x hx
    simp only [splitChar, List.mem_singleton] at hx
    subst hx
    rfl
  | cons c t ih =>
    intro x hx
    unfold splitChar at hx
    by_cases hc : c = sep
    · rw [if_pos hc] at hx
      rcases List.mem_cons.mp hx with he | hm
      · subst he
        rfl
      · exact containsSub_cons c t x (ih x hm)
    · rw [if_neg hc] at hx
      cases hsp : splitChar sep t with
      | nil => exact absurd hsp (splitChar_ne_nil sep t)
      | cons h' r' =>
        rw [hsp] at hx
        rcases List.mem_cons.mp hx with he | hm
        · subst he
          unfold containsSub
          have : (c :: h').isPrefixOf (c :: t) = true := by
            show ((c == c) && h'.isPrefixOf t) = true
            rw [beq_self_eq_true]
            simpa using splitChar_head_prefix sep t h' r' hsp
          rw [this]
          simp
        · exact containsSub_cons c t x (ih x (hsp ▸ List.mem_cons_of_mem h' hm))

/-- A parent-directory segment in a path makes the ".." substring test
of the source succeed. -/
theorem hasParentSegment_containsSub (s : String)
    (h : hasParentSegment s = true) :
    containsSub s.data "..".data = true := by
  unfold hasParentSegment at h
  rw [List.any_eq_true] at h
  obtain ⟨x, hx, heq⟩ := h
  rw [decide_eq_true_eq] at heq
  subst heq
  exact mem_splitChar_containsSub '/' s.data _ hx

theorem readManifestLoop_err_text (fs : String → FileRes) :
    ∀ (fns : List String) (acc : String) (opened : List String),
    (readManifestLoop fs fns acc opened).err ≠ none →
    (readManifestLoop fs fns acc opened).text = "" := by
  intro fns
  induction fns with
  | nil =>
    intro acc opened h
    exact absurd rfl h
  | cons f rest ih =>
    intro acc opened h
    unfold readManifestLoop at h ⊢
    by_cases h1 : containsSub (goClean f).data "..".data = true
    · simp [h1]
    · rw [Bool.not_eq_true] at h1
      rw [if_neg (by simp [h1])] at h ⊢
      by_cases h2 : goIsAbs (goClean f) = true
      · simp [h2]
      · rw [Bool.not_eq_true] at h2
        rw [if_neg (by simp [h2])] at h ⊢
        cases hr : fs (goClean f) with
        | missing => rfl
        | readError => rfl
        | content text =>
          rw [hr] at h
          exact ih _ _ h

theorem readManifestLoop_bad (fs : String → FileRes) :
    ∀ (fns : List String) (acc : String) (opened : List String) (p : String),
    p ∈ fns →
    containsSub (goClean p).data "..".data = true ∨ goIsAbs (goClean p) = true →
    (∀ q ∈ opened, containsSub q.data "..".data = false ∧ goIsAbs q = false) →
    (readManifestLoop fs fns acc opened).err ≠ none ∧
    goClean p ∉ (readManifestLoop fs fns acc opened).opened := by
  intro fns
  induction fns with
  | nil =>
    intro acc opened p hp _ _
    simp at hp
  | cons f rest ih =>
    intro acc opened p hp hbad hinv
    have hnotin : goClean p ∉ opened := by
      intro hin
      rcases hbad with hb | hb
      · rw [(hinv _ hin).1] at hb
        exact absurd hb (by simp)
      · rw [(hinv _ hin).2] at hb
        exact absurd hb (by simp)
    unfold readManifestLoop
    by_cases h1 : containsSub (goClean f).data "..".data = true
    · rw [if_pos (by simp [h1])]
      exact ⟨by simp, hnotin⟩
    · rw [Bool.not_eq_true] at h1
      rw [if_neg (by simp [h1])]
      by_cases h2 : goIsAbs (goClean f) = true
      · rw [if_pos (by simp [h2])]
        exact ⟨by simp, hnotin⟩
      · rw [Bool.not_eq_true] at h2
        rw [if_neg (by simp [h2])]
        have hpf : p ≠ f := by
          intro he
          subst he
          rcases hbad with hb | hb
          · rw [h1] at hb
            exact absurd hb (by simp)
          · rw [h2] at hb
            exact absurd hb (by simp)
        have hprest : p ∈ rest := by
          rcases List.mem_cons.mp hp with he | hm
          · exact absurd he hpf
          · exact hm
        have hnotin2 : goClean p ∉ opened ++ [goClean f] := by
          intro hin
          rcases List.mem_append.mp hin with hi | hi
          · exact hnotin hi
          · rw [List.mem_singleton] at hi
            rcases hbad with hb | hb
            · rw [hi, h1] at hb
              exact absurd hb (by simp)
            · rw [hi, h2] at hb
              exact absurd hb (by simp)
        have hinv2 : ∀ q ∈ opened ++ [goClean f],
            containsSub q.data "..".data = false ∧ goIsAbs q = false := by
          intro q hq
          rcases List.mem_append.mp hq with hi | hi
          · exact hinv q hi
          · rw [List.mem_singleton] at hi
            subst hi
            exact ⟨h1, h2⟩
        cases hr : fs (goClean f) with
        | missing => exact ⟨by simp, hnotin2⟩
        | readError => exact ⟨by simp, hnotin2⟩
        | content text => exact ih _ _ p hprest hbad hinv2

/-- C7.  A path whose cleaned form contains a parent-directory segment
or is absolute makes readManifestFiles fail, with no open ever attempted
on that cleaned path; and on every failure, of any kind, the returned
text is the empty string, never a partial concatenation. -/
theorem readManifestFiles_rejects (fs : String → FileRes)
    (filenames : List String) (p : String) (hp : p ∈ filenames)
    (hbad : hasParentSegment (goClean p) = true ∨ goIsAbs (goClean p) = true) :
    ((readManifestFiles fs filenames).err ≠ none ∧
     (readManifestFiles fs filenames).text = "" ∧
     goClean p ∉ (readManifestFiles fs filenames).opened) ∧
    ∀ (fs' : String → FileRes) (fns' : List String),
      (readManifestFiles fs' fns').err ≠ none →
      (readManifestFiles fs' fns').text = "" := by
  have hbad' : containsSub (goClean p).data "..".data = true ∨
      goIsAbs (goClean p) = true := by
    rcases hbad with h | h
    · exact Or.inl (hasParentSegment_containsSub _ h)
    · exact Or.inr h
  have hmain := readManifestLoop_bad fs filenames "" [] p hp hbad'
    (by intro q hq; simp at hq)
  exact ⟨⟨hmain.1, readManifestLoop_err_text fs filenames "" [] hmain.1,
    hmain.2⟩,
    fun fs' fns' h => readManifestLoop_err_text fs' fns' "" [] h⟩

/-- Witness for C7: a concrete parent-directory path among the inputs,
over a filesystem with no files. -/
theorem readManifestFiles_rejects_witness :
    ((readManifestFiles (fun _ => FileRes.missing)
        ["ok.yaml", "../secret.yaml"]).err ≠ none ∧
     (readManifestFiles (fun _ => FileRes.missing)
        ["ok.yaml", "../secret.yaml"]).text = "" ∧
     goClean "../secret.yaml" ∉ (readManifestFiles (fun _ => FileRes.missing)
        ["ok.yaml", "../secret.yaml"]).opened) ∧
    ∀ (fs' : String → FileRes) (fns' : List String),
      (readManifestFiles fs' fns').err ≠ none →
      (readManifestFiles fs' fns').text = "" :=
  readManifestFiles_rejects (fun _ => FileRes.missing)
    ["ok.yaml", "../secret.yaml"] "../secret.yaml" (by decide) (by decide)

/-! ### Lemmas about sorted association lists (for the Diff Renderer) -/

theorem charListLE_refl : ∀ a : List Char, charListLE a a = true := by
  intro a
  induction a with
  | nil => rfl
  | cons c t ih => simpa [charListLE] using ih

theorem lookupL_eq_none_iff {α : Type} (k : String) :
    ∀ l : List (String × α), lookupL k l = none ↔ k ∉ keysOf l := by
  intro l
  induction l with
  | nil => simp [lookupL, keysOf]
  | cons p t ih =>
    rcases p with ⟨k', v⟩
    unfold lookupL
    by_cases h : k' = k
    · subst h
      simp [keysOf]
    · simp only [if_neg h, keysOf, List.map_cons, List.mem_cons]
      rw [ih]
      unfold keysOf
      constructor
      · intro hn hc
        rcases hc with he | hm
        · exact h he.symm
        · exact hn hm
      · intro hn hm
        exact hn (Or.inr hm)

theorem mem_of_lookupL {α : Type} (k : String) (v : α) :
    ∀ l : List (String × α), lookupL k l = some v → (k, v) ∈ l := by
  intro l
  induction l with
  | nil => intro h; simp [lookupL] at h
  | cons p t ih =>
    rcases p with ⟨k', v'⟩
    intro h
    unfold lookupL at h
    by_cases he : k' = k
    · subst he
      rw [if_pos rfl] at h
      cases h
      exact List.mem_cons_self _ _
    · rw [if_neg he] at h
      exact List.mem_cons_of_mem _ (ih h)

theorem lookupL_of_mem_nodup {α : Type} (k : String) (v : α) :
    ∀ l : List (String × α), NodupKeys l → (k, v) ∈ l →
    lookupL k l = some v := by
  intro l
  induction l with
  | nil => intro _ hm; simp at hm
  | cons p t ih =>
    rcases p with ⟨k', v'⟩
    intro hn hm
    rcases List.mem_cons.mp hm with he | hm2
    · rw [Prod.mk.injEq] at he
      rw [he.1, he.2]
      simp [lookupL]
    · have hk : ¬k' = k := by
        intro he2
        subst he2
        have : k' ∈ keysOf t := by
          unfold keysOf
          exact List.mem_map_of_mem Prod.fst hm2
        unfold NodupKeys keysOf at hn
        rw [List.map_cons, List.nodup_cons] at hn
        exact hn.1 this
      unfold lookupL
      rw [if_neg hk]
      refine ih ?_ hm2
      unfold NodupKeys keysOf at hn ⊢
      rw [List.map_cons, List.nodup_cons] at hn
      exact hn.2

theorem NodupKeys_perm {α : Type} {l1 l2 : List (String × α)}
    (hp : l1.Perm l2) (h : NodupKeys l1) : NodupKeys l2 :=
  (List.Perm.nodup_iff (hp.map Prod.fst)).mp h

theorem lookupL_perm {α : Type} {l1 l2 : List (String × α)}
    (hp : l1.Perm l2) (h1 : NodupKeys l1) (k : String) :
    lookupL k l1 = lookupL k l2 := by
  cases h : lookupL k l1 with
  | some v =>
    have hm : (k, v) ∈ l2 := hp.mem_iff.mp (mem_of_lookupL k v l1 h)
    exact (lookupL_of_mem_nodup k v l2 (NodupKeys_perm hp h1) hm).symm
  | none =>
    rw [lookupL_eq_none_iff] at h
    have : k ∉ keysOf l2 := by
      intro hc
      exact h ((hp.map Prod.fst).mem_iff.mpr hc)
    exact ((lookupL_eq_none_iff k l2).mpr this).symm

theorem sorted_lookup_eq {α : Type} :
    ∀ (a b : List (String × α)), List.Sorted keyLE a → List.Sorted keyLE b →
    NodupKeys a → NodupKeys b → (∀ k, lookupL k a = lookupL k b) → a = b := by
  intro a
  induction a with
  | nil =>
    intro b _ _ _ _ hl
    cases b with
    | nil => rfl
    | cons p t =>
      rcases p with ⟨k, v⟩
      have h := hl k
      simp [lookupL] at h
  | cons p t ih =>
    intro b hsa hsb hna hnb hl
    rcases p with ⟨k1, v1⟩
    cases b with
    | nil =>
      have h := hl k1
      simp [lookupL] at h
    | cons q u =>
      rcases q with ⟨k2, v2⟩
      have h1b : lookupL k1 ((k2, v2) :: u) = some v1 := by
        rw [← hl k1]
        simp [lookupL]
      have h2a : lookupL k2 ((k1, v1) :: t) = some v2 := by
        rw [hl k2]
        simp [lookupL]
      have hk1m : (k1, v1) ∈ (k2, v2) :: u := mem_of_lookupL _ _ _ h1b
      have hk2m : (k2, v2) ∈ (k1, v1) :: t := mem_of_lookupL _ _ _ h2a
      have hle21 : charListLE k2.data k1.data = true := by
        rcases List.mem_cons.mp hk1m with he | hm
        · rw [Prod.mk.injEq] at he
          rw [he.1]
          exact charListLE_refl _
        · exact List.rel_of_sorted_cons hsb _ hm
      have hle12 : charListLE k1.data k2.data = true := by
        rcases List.mem_cons.mp hk2m with he | hm
        · rw [Prod.mk.injEq] at he
          rw [he.1]
          exact charListLE_refl _
        · exact List.rel_of_sorted_cons hsa _ hm
      have hk12 : k1 = k2 := by
        have hd := charListLE_antisymm _ _ hle12 hle21
        cases k1
        cases k2
        exact congrArg String.mk hd
      subst hk12
      have hv : v1 = v2 := by
        unfold lookupL at h2a
        rw [if_pos rfl] at h2a
        cases h2a
        rfl
      subst hv
      have hna' : NodupKeys t := by
        unfold NodupKeys keysOf at hna ⊢
        rw [List.map_cons, List.nodup_cons] at hna
        exact hna.2
      have hnb' : NodupKeys u := by
        unfold NodupKeys keysOf at hnb ⊢
        rw [List.map_cons, List.nodup_cons] at hnb
        exact hnb.2
      have hk1t : k1 ∉ keysOf t := by
        unfold NodupKeys keysOf at hna
        rw [List.map_cons, List.nodup_cons] at hna
        exact hna.1
      have hk1u : k1 ∉ keysOf u := by
        unfold NodupKeys keysOf at hnb
        rw [List.map_cons, List.nodup_cons] at hnb
        exact hnb.1
      have hl' : ∀ k, lookupL k t = lookupL k u := by
        intro k
        by_cases hk : k = k1
        · subst hk
          rw [(lookupL_eq_none_iff k t).mpr hk1t,
            (lookupL_eq_none_iff k u).mpr hk1u]
        · have h := hl k
          unfold lookupL at h
          rw [if_neg (fun he => hk he.symm), if_neg (fun he => hk he.symm)] at h
          exact h
      rw [ih u hsa.of_cons hsb.of_cons hna' hnb' hl']

theorem sortKeys_eq_of_lookup {α : Type} (l1 l2 : List (String × α))
    (h1 : NodupKeys l1) (h2 : NodupKeys l2)
    (hl : ∀ k, lookupL k l1 = lookupL k l2) : sortKeys l1 = sortKeys l2 := by
  have hp1 : (sortKeys l1).Perm l1 := List.perm_insertionSort keyLE l1
  have hp2 : (sortKeys l2).Perm l2 := List.perm_insertionSort keyLE l2
  have hn1 : NodupKeys (sortKeys l1) := NodupKeys_perm hp1.symm h1
  have hn2 : NodupKeys (sortKeys l2) := NodupKeys_perm hp2.symm h2
  refine sorted_lookup_eq _ _ (List.sorted_insertionSort keyLE l1)
    (List.sorted_insertionSort keyLE l2) hn1 hn2 ?_
  intro k
  rw [lookupL_perm hp1 hn1 k, lookupL_perm hp2 hn2 k]
  exact hl k

/-! ### Lemmas about removeUnwantedFields and the rendered diff -/

theorem lookupL_eraseKeyL {α : Type} (k k' : String) :
    ∀ l : List (String × α),
    lookupL k (eraseKeyL k' l) = if k = k' then none else lookupL k l := by
  intro l
  induction l with
  | nil => by_cases h : k = k' <;> simp [eraseKeyL, lookupL, h]
  | cons p t ih =>
    rcases p with ⟨pk, pv⟩
    by_cases hpk : pk = k'
    · subst hpk
      have he : eraseKeyL pk ((pk, pv) :: t) = eraseKeyL pk t := by
        simp [eraseKeyL]
      rw [he, ih]
      by_cases hk : k = pk
      · simp [hk]
      · have hk2 : ¬pk = k := fun h => hk h.symm
        simp [lookupL, hk, hk2]
    · have he : eraseKeyL k' ((pk, pv) :: t) = (pk, pv) :: eraseKeyL k' t := by
        simp [eraseKeyL, hpk]
      rw [he]
      by_cases hk : pk = k
      · subst hk
        simp [lookupL, hpk]
      · simp [lookupL, hk, ih]

theorem lookupL_foldl_erase (ks : List String) :
    ∀ (m : List (String × String)) (k : String),
    lookupL k (ks.foldl (fun acc kk => eraseKeyL kk acc) m) =
      if k ∈ ks then none else lookupL k m := by
  induction ks with
  | nil => intro m k; simp
  | cons kk rest ih =>
    intro m k
    rw [List.foldl_cons, ih]
    by_cases h1 : k ∈ rest
    · simp [h1]
    · rw [if_neg h1, lookupL_eraseKeyL]
      by_cases h2 : k = kk
      · simp [h2]
      · simp [h2, List.mem_cons, h1]

theorem lookupL_eraseVolatile (m : List (String × String)) (k : String) :
    lookupL k (eraseVolatile m) =
      if k ∈ volatileMetaKeys then none else lookupL k m :=
  lookupL_foldl_erase volatileMetaKeys m k

theorem NodupKeys_eraseKeyL {α : Type} (k' : String) (l : List (String × α))
    (h : NodupKeys l) : NodupKeys (eraseKeyL k' l) := by
  unfold NodupKeys keysOf at h ⊢
  exact ((List.filter_sublist l).map Prod.fst).nodup h

theorem NodupKeys_foldl_erase (ks : List String) :
    ∀ m : List (String × String), NodupKeys m →
    NodupKeys (ks.foldl (fun acc kk => eraseKeyL kk acc) m) := by
  induction ks with
  | nil => intro m h; exact h
  | cons kk rest ih =>
    intro m h
    rw [List.foldl_cons]
    exact ih _ (NodupKeys_eraseKeyL kk m h)

theorem keysOf_mapAtKey {α : Type} (k : String) (f : α → α)
    (l : List (String × α)) : keysOf (mapAtKey k f l) = keysOf l := by
  unfold keysOf mapAtKey
  rw [List.map_map]
  apply List.map_congr_left
  intro p _
  by_cases h : p.1 = k <;> simp [h]

theorem NodupKeys_mapAtKey {α : Type} (k : String) (f : α → α)
    (l : List (String × α)) (h : NodupKeys l) :
    NodupKeys (mapAtKey k f l) := by
  unfold NodupKeys
  rw [keysOf_mapAtKey]
  exact h

theorem lookupL_mapAtKey {α : Type} (k' k : String) (f : α → α) :
    ∀ l : List (String × α),
    lookupL k' (mapAtKey k f l) =
      if k' = k then (lookupL k l).map f else lookupL k' l := by
  intro l
  induction l with
  | nil => by_cases h : k' = k <;> simp [mapAtKey, lookupL, h]
  | cons p t ih =>
    rcases p with ⟨pk, pv⟩
    show lookupL k' ((if pk = k then (pk, f pv) else (pk, pv)) :: mapAtKey k f t) = _
    by_cases hpk : pk = k
    · rw [if_pos hpk]
      subst hpk
      by_cases hk : pk = k'
      · subst hk
        simp [lookupL]
      · have hk' : ¬k' = pk := fun h => hk h.symm
        simp [lookupL, hk, hk', ih]
    · rw [if_neg hpk]
      by_cases hk : pk = k'
      · subst hk
        have hks : ¬pk = k := hpk
        simp [lookupL, hks]
      · simp [lookupL, hk, hpk, ih]

theorem rm_lookup_status (d : Doc) :
    lookupL "status" (removeUnwantedFields d) = none := by
  unfold removeUnwantedFields
  dsimp only
  cases hm : lookupL "metadata" (eraseKeyL "status" d) with
  | none =>
    simp only [hm]
    rw [lookupL_eraseKeyL]
    simp
  | some v =>
    cases v with
    | atom s =>
      simp only [hm]
      rw [lookupL_eraseKeyL]
      simp
    | mapv m =>
      simp only [hm]
      rw [lookupL_mapAtKey, if_neg (by decide), lookupL_eraseKeyL]
      simp

theorem rm_lookup_other (d : Doc) (k : String) (h1 : ¬k = "status")
    (h2 : ¬k = "metadata") :
    lookupL k (removeUnwantedFields d) = lookupL k d := by
  unfold removeUnwantedFields
  dsimp only
  cases hm : lookupL "metadata" (eraseKeyL "status" d) with
  | none =>
    simp only [hm]
    rw [lookupL_eraseKeyL, if_neg h1]
  | some v =>
    cases v with
    | atom s =>
      simp only [hm]
      rw [lookupL_eraseKeyL, if_neg h1]
    | mapv m =>
      simp only [hm]
      rw [lookupL_mapAtKey, if_neg h2, lookupL_eraseKeyL, if_neg h1]

theorem rm_lookup_metadata (d : Doc) :
    lookupL "metadata" (removeUnwantedFields d) =
      match lookupL "metadata" d with
      | some (.mapv m) => some (.mapv (eraseVolatile m))
      | v => v := by
  unfold removeUnwantedFields
  dsimp only
  have he : lookupL "metadata" (eraseKeyL "status" d) = lookupL "metadata" d := by
    rw [lookupL_eraseKeyL]
    simp
  cases hm : lookupL "metadata" (eraseKeyL "status" d) with
  | none =>
    have hm0 : lookupL "metadata" d = none := by rw [← he]; exact hm
    simp only [hm, hm0]
  | some v =>
    have hm0 : lookupL "metadata" d = some v := by rw [← he]; exact hm
    cases v with
    | atom s =>
      simp only [hm, hm0]
    | mapv m =>
      simp only [hm, hm0]
      rw [lookupL_mapAtKey, if_pos rfl, he, hm0]
      rfl

theorem NodupKeys_remove (d : Doc) (h : NodupKeys d) :
    NodupKeys (removeUnwantedFields d) := by
  unfold removeUnwantedFields
  dsimp only
  cases hm : lookupL "metadata" (eraseKeyL "status" d) with
  | none =>
    simp only [hm]
    exact NodupKeys_eraseKeyL _ _ h
  | some v =>
    cases v with
    | atom s =>
      simp only [hm]
      exact NodupKeys_eraseKeyL _ _ h
    | mapv m =>
      simp only [hm]
      exact NodupKeys_mapAtKey _ _ _ (NodupKeys_eraseKeyL _ _ h)

theorem lookupL_map_serialize (k : String) :
    ∀ d : Doc,
    lookupL k (d.map (fun p => (p.1, serializeVal p.2))) =
      (lookupL k d).map serializeVal := by
  intro d
  induction d with
  | nil => simp [lookupL]
  | cons p t ih =>
    rcases p with ⟨pk, pv⟩
    show lookupL k ((pk, serializeVal pv) :: _) = _
    by_cases h : pk = k
    · simp [lookupL, h]
    · simp [lookupL, h, ih]

theorem NodupKeys_map_serialize (d : Doc) (h : NodupKeys d) :
    NodupKeys (d.map (fun p => (p.1, serializeVal p.2))) := by
  unfold NodupKeys keysOf at h ⊢
  rw [List.map_map]
  exact h

/-- Documents that differ only in the volatile fields have the same
canonical text after cleaning. -/
theorem marshal_remove_eq (d1 d2 : Doc) (h1 : DocParsed d1)
    (h2 : DocParsed d2) (hd : DifferOnlyInVolatile d1 d2) :
    marshal (removeUnwantedFields d1) = marshal (removeUnwantedFields d2) := by
  obtain ⟨hfst, hmeta⟩ := hd
  obtain ⟨hn1, hmn1⟩ := h1
  obtain ⟨hn2, hmn2⟩ := h2
  unfold marshal
  have hsort : sortKeys ((removeUnwantedFields d1).map
        (fun p => (p.1, serializeVal p.2))) =
      sortKeys ((removeUnwantedFields d2).map
        (fun p => (p.1, serializeVal p.2))) := by
    apply sortKeys_eq_of_lookup
    · exact NodupKeys_map_serialize _ (NodupKeys_remove d1 hn1)
    · exact NodupKeys_map_serialize _ (NodupKeys_remove d2 hn2)
    · intro k
      rw [lookupL_map_serialize, lookupL_map_serialize]
      by_cases hks : k = "status"
      · subst hks
        rw [rm_lookup_status, rm_lookup_status]
      · by_cases hkm : k = "metadata"
        · subst hkm
          rw [rm_lookup_metadata, rm_lookup_metadata]
          unfold MetaAgree at hmeta
          unfold MetaNodup at hmn1 hmn2
          cases hm1 : lookupL "metadata" d1 with
          | none =>
            rw [hm1] at hmeta
            cases hm2 : lookupL "metadata" d2 with
            | none => rfl
            | some v2 =>
              rw [hm2] at hmeta
              cases v2 <;> exact absurd hmeta (by simp)
          | some v1 =>
            rw [hm1] at hmeta hmn1
            cases hm2 : lookupL "metadata" d2 with
            | none =>
              rw [hm2] at hmeta
              cases v1 <;> exact absurd hmeta (by simp)
            | some v2 =>
              rw [hm2] at hmeta hmn2
              cases v1 with
              | atom s1 =>
                cases v2 with
                | atom s2 =>
                  have : s1 = s2 := by simpa using hmeta
                  rw [this]
                | mapv m2 => exact absurd hmeta (by simp)
              | mapv m1 =>
                cases v2 with
                | atom s2 => exact absurd hmeta (by simp)
                | mapv m2 =>
                  have hse : sortKeys (eraseVolatile m1) =
                      sortKeys (eraseVolatile m2) := by
                    apply sortKeys_eq_of_lookup
                    · exact NodupKeys_foldl_erase volatileMetaKeys m1 hmn1
                    · exact NodupKeys_foldl_erase volatileMetaKeys m2 hmn2
                    · intro k'
                      rw [lookupL_eraseVolatile, lookupL_eraseVolatile]
                      by_cases hv : k' ∈ volatileMetaKeys
                      · simp [hv]
                      · rw [if_neg hv, if_neg hv]
                        by_cases hkk : k' ∈ keysOf m1 ++ keysOf m2
                        · exact hmeta k' hkk hv
                        · rw [List.mem_append] at hkk
                          push_neg at hkk
                          rw [(lookupL_eq_none_iff k' m1).mpr hkk.1,
                            (lookupL_eq_none_iff k' m2).mpr hkk.2]
                  show some (serializeVal (YVal.mapv (eraseVolatile m1))) =
                    some (serializeVal (YVal.mapv (eraseVolatile m2)))
                  simp only [serializeVal]
                  rw [hse]
        · rw [rm_lookup_other d1 k hks hkm, rm_lookup_other d2 k hks hkm]
          by_cases hkk : k ∈ keysOf d1 ++ keysOf d2
          · rw [hfst k hkk hks hkm]
          · rw [List.mem_append] at hkk
            push_neg at hkk
            rw [(lookupL_eq_none_iff k d1).mpr hkk.1,
              (lookupL_eq_none_iff k d2).mpr hkk.2]
  rw [hsort]

/-- C6.  For every pair of parsed documents that differ only in the
fields removed by normalization (the status subtree and the volatile
metadata keys), showDiff renders a no-op diff; and for any document
diffed against itself the rendered diff is a no-op. -/
theorem showDiff_noop_of_volatile (d1 d2 : Doc) (h1 : DocParsed d1)
    (h2 : DocParsed d2) (hd : DifferOnlyInVolatile d1 d2) :
    diffIsNoOp (showDiffRendered d1 d2) = true ∧
    ∀ d : Doc, diffIsNoOp (showDiffRendered d d) = true := by
  constructor
  · have hm := marshal_remove_eq d1 d2 h1 h2 hd
    unfold showDiffRendered diffMain
    rw [hm]
    by_cases he : marshal (removeUnwantedFields d2) = "" <;>
      simp [he, diffIsNoOp]
  · intro d
    unfold showDiffRendered diffMain
    by_cases he : marshal (removeUnwantedFields d) = "" <;>
      simp [he, diffIsNoOp]

/-- A parsed document with status and volatile metadata noise. -/
def exampleDocBefore : Doc :=
  [("apiVersion", .atom "v1"), ("kind", .atom "ConfigMap"),
   ("metadata", .mapv [("name", "test"), ("uid", "abc"),
     ("resourceVersion", "7")]),
   ("data", .atom "key: value"), ("status", .atom "whatever")]

/-- The same document after the cluster rewrote the volatile fields. -/
def exampleDocAfter : Doc :=
  [("apiVersion", .atom "v1"), ("kind", .atom "ConfigMap"),
   ("metadata", .mapv [("name", "test"), ("uid", "zzz")]),
   ("data", .atom "key: value")]

/-- Witness for C6 at two concrete documents differing only in status,
uid and resourceVersion. -/
theorem showDiff_noop_of_volatile_witness :
    diffIsNoOp (showDiffRendered exampleDocBefore exampleDocAfter) = true ∧
    ∀ d : Doc, diffIsNoOp (showDiffRendered d d) = true :=
  showDiff_noop_of_volatile exampleDocBefore exampleDocAfter
    (by decide) (by decide) (by decide)

end Kronoform
